import Mathlib

/-!
Verification of the environment-resolution engine of `env-loader`
(`src/main.rs`).  The program snapshots the process environment, moves
explicitly passed names and (when a prefix is configured) non-prefixed
names verbatim into an output map, then runs a resolution loop over the
remaining candidates: values containing `::` are split once into a load
method and a payload and dispatched (`value` uses the payload verbatim,
`aws_sm` queries a secret backend, anything else is an error), after which
the output name may have the configured prefix stripped.  We model the
`HashMap`s as association lists, `std::process::exit(1)` as an `Except`
error, the secret backend as an oracle `String → Option String`, and we
instrument the model with the warnings logged and the secret ids requested.
-/

namespace EnvLoader

/-- Association-list model of the `HashMap<String, String>` maps of `main`.
Iteration order is the list order. -/
abbrev Env := List (String × String)

/-- `HashMap::get`-style lookup: the value stored under key `k`, if any. -/
def lookupVar : Env → String → Option String
  | [], _ => none
  | (k', v) :: rest, k => if k' = k then some v else lookupVar rest k

/-- `HashMap::insert`: replace the entry for `k` if present, else append. -/
def insertVar : Env → String → String → Env
  | [], k, v => [(k, v)]
  | (k', v') :: rest, k, v =>
      if k' = k then (k, v) :: rest else (k', v') :: insertVar rest k v

/-- `HashMap::remove`: the removed value and the remaining entries. -/
def removeVar : Env → String → Option (String × Env)
  | [], _ => none
  | (k', v) :: rest, k =>
      if k' = k then some (v, rest)
      else (removeVar rest k).map (fun p => (p.1, (k', v) :: p.2))

/-- `str::starts_with` on character lists. -/
def startsWithL : List Char → List Char → Bool
  | _, [] => true
  | [], _ :: _ => false
  | a :: s, b :: t => a == b && startsWithL s t

/-- `str::contains`: does `needle` occur contiguously in `hay`? -/
def containsL : List Char → List Char → Bool
  | [], needle => startsWithL [] needle
  | hay@(_ :: t), needle => startsWithL hay needle || containsL t needle

/-- `str::split_once`: split at the first occurrence of `needle`. -/
def splitOnceL : List Char → List Char → Option (List Char × List Char)
  | [], needle => if startsWithL [] needle then some ([], []) else none
  | hay@(c :: t), needle =>
      if startsWithL hay needle then some ([], hay.drop needle.length)
      else (splitOnceL t needle).map (fun p => (c :: p.1, p.2))

/-- `str::starts_with` on strings. -/
def strStartsWith (s p : String) : Bool := startsWithL s.data p.data

/-- `str::contains` on strings. -/
def strContains (s n : String) : Bool := containsL s.data n.data

/-- `str::split_once` on strings. -/
def strSplitOnce (s n : String) : Option (String × String) :=
  (splitOnceL s.data n.data).map (fun p => (String.mk p.1, String.mk p.2))

/-- `str::strip_prefix(..).unwrap()` as used under a `starts_with` guard:
drop the leading characters of `p` from `s`. -/
def dropPfx (s p : String) : String := String.mk (s.data.drop p.data.length)

/-- The run configuration (`Application` in `main.rs`, already parsed):
`pass` is the explicit pass-through list, `ignore_missing` the
do-not-exit flag, `envPfx` the optional variable prefix. -/
structure Config where
  pass : List String
  ignore_missing : Bool
  envPfx : Option String
deriving DecidableEq, Repr

/-- The warnings `main` can log via `tracing::warn!`. -/
inductive Warning where
  | missingPass (name : String)
  | secretFailed (secretId : String) (varName : String)
  | unknownMethod (method : String) (varName : String)
deriving DecidableEq, Repr

/-- State of the resolution loop: the output map `passed`
(`passed_variables`), the warnings logged so far, and the secret ids
requested from the backend so far. -/
structure LoopState where
  passed : Env
  warnings : List Warning
  calls : List String
deriving DecidableEq, Repr

/-- The name under which a successfully resolved variable is inserted
(`main.rs` lines 136-147 and 154-165): when a prefix is configured and the
variable name starts with it, the prefix is stripped once; otherwise the
name is kept as-is. -/
def outputName (pfx : Option String) (k : String) : String :=
  match pfx with
  | none => k
  | some p => if strStartsWith k p then dropPfx k p else k

/-- One iteration of the resolution loop (`main.rs` lines 129-187) on the
candidate variable `(k, v)`.  `resolve` is the secret backend
(`Amazon::get_secret`); `Except.error` models `std::process::exit(1)`.
The guard `value.contains("::")` of line 130 and the `split_once` of line
131 agree (`strContains_iff_strSplitOnce` below), so the `none` branch is
exactly the no-directive case, in which the loop body does nothing. -/
def resolveVar (cfg : Config) (resolve : String → Option String)
    (st : LoopState) (k v : String) : Except LoopState LoopState :=
  match strSplitOnce v "::" with
  | none => Except.ok st
  | some (m, r) =>
      if m = "value" then
        Except.ok { st with passed := insertVar st.passed (outputName cfg.envPfx k) r }
      else if m = "aws_sm" then
        match resolve r with
        | some value =>
            Except.ok { st with
              passed := insertVar st.passed (outputName cfg.envPfx k) value,
              calls := st.calls ++ [r] }
        | none =>
            let st' := { st with
              warnings := st.warnings ++ [Warning.secretFailed r k],
              calls := st.calls ++ [r] }
            if cfg.ignore_missing then Except.ok st' else Except.error st'
      else
        let st' := { st with warnings := st.warnings ++ [Warning.unknownMethod m k] }
        if cfg.ignore_missing then Except.ok st' else Except.error st'

/-- Outcome of a run: `exit1` models `std::process::exit(1)`, `launch`
models reaching the `execvpe` call with the final environment. -/
inductive RunResult where
  | exit1 (warnings : List Warning) (calls : List String)
  | launch (env : Env) (warnings : List Warning) (calls : List String)
deriving DecidableEq, Repr

/-- The resolution loop over the remaining candidate variables. -/
def runLoop (cfg : Config) (resolve : String → Option String) :
    List (String × String) → LoopState → RunResult
  | [], st => RunResult.launch st.passed st.warnings st.calls
  | (k, v) :: rest, st =>
      match resolveVar cfg resolve st k v with
      | Except.ok st' => runLoop cfg resolve rest st'
      | Except.error st' => RunResult.exit1 st'.warnings st'.calls

/-- Result of the explicit pass-through step: remaining candidates,
output map so far, warnings so far. -/
structure PassResult where
  vars : Env
  passed : Env
  warnings : List Warning
deriving DecidableEq, Repr

/-- Explicit pass-through (`main.rs` lines 107-116): each name in `pass`
is removed from the candidate map and inserted verbatim into the output
map; a missing name only logs a warning. -/
def passStep : List String → Env → Env → List Warning → PassResult
  | [], vars, passed, ws => ⟨vars, passed, ws⟩
  | name :: rest, vars, passed, ws =>
      match removeVar vars name with
      | some (value, vars') => passStep rest vars' (insertVar passed name value) ws
      | none => passStep rest vars passed (ws ++ [Warning.missingPass name])

/-- Prefix pass-through (`main.rs` lines 118-125): when a prefix is
configured, every variable whose name does not start with it is moved
verbatim from the candidate map into the output map. -/
def pfxStep (pfx : Option String) (vars passed : Env) : Env × Env :=
  match pfx with
  | none => (vars, passed)
  | some p =>
      (vars.filter (fun kv => strStartsWith kv.1 p),
       vars.foldl
         (fun acc kv => if strStartsWith kv.1 p then acc else insertVar acc kv.1 kv.2)
         passed)

/-- The whole pipeline of `main` (lines 103-187): explicit pass list,
then prefix pass-through, then the directive resolution loop.  The exec
step is modelled by `RunResult.launch` carrying the final environment. -/
def run (cfg : Config) (resolve : String → Option String) (rawEnv : Env) : RunResult :=
  let pr := passStep cfg.pass rawEnv [] []
  let st := pfxStep cfg.envPfx pr.vars pr.passed
  runLoop cfg resolve st.1 { passed := st.2, warnings := pr.warnings, calls := [] }

/-- Warnings carried by either outcome. -/
def runWarnings : RunResult → List Warning
  | RunResult.exit1 ws _ => ws
  | RunResult.launch _ ws _ => ws

/-- The final environment, when the run reaches the launcher. -/
def runEnv : RunResult → Option Env
  | RunResult.exit1 _ _ => none
  | RunResult.launch env _ _ => some env

/-- The `HashMap` invariant on the environment snapshot: names unique. -/
abbrev keysNodup (env : Env) : Prop := (env.map Prod.fst).Nodup

end EnvLoader

namespace EnvLoader

theorem startsWithL_nil (s : List Char) : startsWithL s [] = true := by
  cases s <;> rfl

theorem startsWithL_iff (p : List Char) :
    ∀ s : List Char, startsWithL s p = true ↔ ∃ t, s = p ++ t := by
  induction p with
  | nil =>
      intro s
      simp [startsWithL_nil]
  | cons b bt ih =>
      intro s
      cases s with
      | nil => simp [startsWithL]
      | cons a s' =>
          simp only [startsWithL, Bool.and_eq_true, beq_iff_eq, ih, List.cons_append,
            List.cons.injEq]
          constructor
          · rintro ⟨rfl, t, rfl⟩
            exact ⟨t, rfl, rfl⟩
          · rintro ⟨t, rfl, rfl⟩
            exact ⟨rfl, t, rfl⟩

theorem startsWithL_append (p t : List Char) : startsWithL (p ++ t) p = true :=
  (startsWithL_iff p (p ++ t)).2 ⟨t, rfl⟩

theorem startsWithL_drop (p s : List Char) (h : startsWithL s p = true) :
    p ++ s.drop p.length = s := by
  obtain ⟨t, rfl⟩ := (startsWithL_iff p s).1 h
  rw [List.drop_left]

theorem startsWithL_append_right (l r n : List Char) (h : startsWithL l n = true) :
    startsWithL (l ++ r) n = true := by
  obtain ⟨t, rfl⟩ := (startsWithL_iff n l).1 h
  exact (startsWithL_iff n _).2 ⟨t ++ r, by simp⟩

theorem startsWithL_nil_left (n : List Char) (hn : n ≠ []) :
    startsWithL [] n = false := by
  cases n with
  | nil => exact absurd rfl hn
  | cons c t => rfl

theorem splitOnceL_of_startsWith (n hay : List Char) (h : startsWithL hay n = true) :
    splitOnceL hay n = some ([], hay.drop n.length) := by
  cases hay with
  | nil =>
      cases n with
      | nil => rfl
      | cons c t => simp [startsWithL] at h
  | cons c t => simp [splitOnceL, h]

theorem splitOnceL_eq_some (n : List Char) (hn : n ≠ []) :
    ∀ hay a b : List Char, splitOnceL hay n = some (a, b) →
      hay = a ++ n ++ b ∧ containsL a n = false := by
  intro hay
  induction hay with
  | nil =>
      intro a b h
      rw [splitOnceL, startsWithL_nil_left n hn] at h
      simp at h
  | cons c t ih =>
      intro a b h
      by_cases hs : startsWithL (c :: t) n = true
      · rw [splitOnceL, if_pos hs] at h
        obtain ⟨rfl, rfl⟩ : ([] : List Char) = a ∧ (c :: t).drop n.length = b := by
          simpa using h
        refine ⟨(startsWithL_drop n (c :: t) hs).symm, ?_⟩
        rw [containsL, startsWithL_nil_left n hn]
      · rw [splitOnceL, if_neg hs] at h
        rw [Option.map_eq_some'] at h
        obtain ⟨⟨a', b'⟩, hsp, hab⟩ := h
        obtain ⟨rfl, rfl⟩ : a = c :: a' ∧ b = b' := by
          have hab' := hab
          simp only [Prod.mk.injEq] at hab'
          exact ⟨hab'.1.symm, hab'.2.symm⟩
        obtain ⟨rfl, hc⟩ := ih a' b hsp
        refine ⟨by simp, ?_⟩
        rw [containsL]
        have hsw : startsWithL (c :: a') n = false := by
          by_contra hco
          rw [Bool.not_eq_false] at hco
          have : startsWithL ((c :: a') ++ (n ++ b)) n = true :=
            startsWithL_append_right _ _ _ hco
          simp only [List.cons_append, List.append_assoc] at this hs
          exact hs this
        rw [hsw, hc]
        rfl

theorem containsL_eq_isSome (n : List Char) :
    ∀ hay : List Char, containsL hay n = (splitOnceL hay n).isSome := by
  intro hay
  induction hay with
  | nil =>
      rw [containsL, splitOnceL]
      cases h : startsWithL [] n <;> simp [h]
  | cons c t ih =>
      rw [containsL, splitOnceL]
      cases hs : startsWithL (c :: t) n <;> simp [hs, ih]

theorem strMk_data (s : String) : String.mk s.data = s := rfl

theorem strData_append (a b : String) : (a ++ b).data = a.data ++ b.data := rfl

theorem strData_ne_nil (n : String) (hn : n ≠ "") : n.data ≠ [] := by
  intro h
  apply hn
  cases n with
  | mk d => cases h; rfl

theorem strContains_iff_strSplitOnce (v n : String) :
    strContains v n = (strSplitOnce v n).isSome := by
  rw [strContains, strSplitOnce, containsL_eq_isSome, Option.isSome_map']

theorem strSplitOnce_eq_some (v n m r : String) (hn : n ≠ "")
    (h : strSplitOnce v n = some (m, r)) :
    v = m ++ n ++ r ∧ strContains m n = false := by
  rw [strSplitOnce, Option.map_eq_some'] at h
  obtain ⟨⟨a, b⟩, hsp, hab⟩ := h
  obtain ⟨rfl, rfl⟩ : String.mk a = m ∧ String.mk b = r := by simpa using hab
  obtain ⟨hd, hc⟩ := splitOnceL_eq_some n.data (strData_ne_nil n hn) v.data a b hsp
  constructor
  · cases v with
    | mk d =>
        cases hd
        rfl
  · exact hc

theorem strStartsWith_append (p t : String) : strStartsWith (p ++ t) p = true := by
  rw [strStartsWith, strData_append]
  exact startsWithL_append p.data t.data

theorem dropPfx_append (p t : String) : dropPfx (p ++ t) p = t := by
  rw [dropPfx, strData_append, List.drop_left]

theorem append_dropPfx (k p : String) (h : strStartsWith k p = true) :
    p ++ dropPfx k p = k := by
  have := startsWithL_drop p.data k.data h
  cases k with
  | mk d =>
      cases p with
      | mk pd =>
          simp only [dropPfx]
          apply congrArg String.mk
          exact this

end EnvLoader

namespace EnvLoader

theorem lookupVar_insertVar_self (env : Env) (k v : String) :
    lookupVar (insertVar env k v) k = some v := by
  induction env with
  | nil => simp [insertVar, lookupVar]
  | cons kv rest ih =>
      obtain ⟨k₀, v₀⟩ := kv
      by_cases h : k₀ = k
      · subst h
        simp [insertVar, lookupVar]
      · simp [insertVar, lookupVar, h, ih]

theorem lookupVar_insertVar_ne (env : Env) (k' k v : String) (h : k' ≠ k) :
    lookupVar (insertVar env k' v) k = lookupVar env k := by
  induction env with
  | nil => simp [insertVar, lookupVar, h]
  | cons kv rest ih =>
      obtain ⟨k₀, v₀⟩ := kv
      by_cases h0 : k₀ = k'
      · subst h0
        simp [insertVar, lookupVar, h]
      · simp [insertVar, lookupVar, h0, ih]

theorem lookupVar_eq_none_iff (env : Env) (k : String) :
    lookupVar env k = none ↔ ∀ p ∈ env, p.1 ≠ k := by
  induction env with
  | nil => simp [lookupVar]
  | cons kv rest ih =>
      obtain ⟨k₀, v₀⟩ := kv
      by_cases h : k₀ = k
      · subst h
        simp [lookupVar]
      · simp [lookupVar, h, ih]

theorem lookupVar_of_mem (env : Env) (k v : String) (hnd : keysNodup env)
    (hm : (k, v) ∈ env) : lookupVar env k = some v := by
  induction env with
  | nil => cases hm
  | cons kv rest ih =>
      obtain ⟨k₀, v₀⟩ := kv
      rw [keysNodup, List.map_cons, List.nodup_cons] at hnd
      simp only [List.mem_cons, Prod.mk.injEq] at hm
      rcases hm with ⟨h1, h2⟩ | hmem
      · subst h1
        subst h2
        simp [lookupVar]
      · have hk : k₀ ≠ k := by
          intro h
          subst h
          exact hnd.1 (List.mem_map.2 ⟨(k₀, v), hmem, rfl⟩)
        rw [lookupVar, if_neg hk]
        exact ih hnd.2 hmem

theorem removeVar_map_fst (env : Env) (k : String) :
    (removeVar env k).map Prod.fst = lookupVar env k := by
  induction env with
  | nil => rfl
  | cons kv rest ih =>
      obtain ⟨k₀, v₀⟩ := kv
      by_cases h : k₀ = k
      · simp [removeVar, lookupVar, h]
      · rw [removeVar, if_neg h, lookupVar, if_neg h, ← ih]
        cases removeVar rest k <;> rfl

theorem removeVar_eq_none (env : Env) (k : String) (h : lookupVar env k = none) :
    removeVar env k = none := by
  have hmf := removeVar_map_fst env k
  rw [h] at hmf
  cases hr : removeVar env k with
  | none => rfl
  | some p =>
      rw [hr] at hmf
      simp at hmf

theorem removeVar_of_mem (env : Env) (k v : String) (hnd : keysNodup env)
    (hm : (k, v) ∈ env) : ∃ env', removeVar env k = some (v, env') := by
  have hl := lookupVar_of_mem env k v hnd hm
  have hmf := removeVar_map_fst env k
  rw [hl] at hmf
  cases hr : removeVar env k with
  | none =>
      rw [hr] at hmf
      simp at hmf
  | some p =>
      obtain ⟨v₁, env'⟩ := p
      rw [hr] at hmf
      simp only [Option.map_some'] at hmf
      obtain rfl : v₁ = v := by simpa using hmf
      exact ⟨env', rfl⟩

theorem removeVar_sublist (env : Env) (k : String) :
    ∀ v env', removeVar env k = some (v, env') → List.Sublist env' env := by
  induction env with
  | nil => intro v env' h; cases h
  | cons kv rest ih =>
      intro v env' h
      obtain ⟨k₀, v₀⟩ := kv
      by_cases hk : k₀ = k
      · rw [removeVar, if_pos hk] at h
        obtain ⟨rfl, rfl⟩ : v₀ = v ∧ rest = env' := by simpa using h
        exact List.sublist_cons_self (k₀, v₀) rest
      · rw [removeVar, if_neg hk, Option.map_eq_some'] at h
        obtain ⟨⟨v₁, rest'⟩, hsp, hp⟩ := h
        obtain ⟨rfl, rfl⟩ : v = v₁ ∧ env' = (k₀, v₀) :: rest' := by
          simp only [Prod.mk.injEq] at hp
          exact ⟨hp.1.symm, hp.2.symm⟩
        exact (ih v rest' hsp).cons₂ (k₀, v₀)

theorem removeVar_mem (env : Env) (k : String) :
    ∀ v env' k₀ v₀, removeVar env k = some (v, env') → k₀ ≠ k → (k₀, v₀) ∈ env →
      (k₀, v₀) ∈ env' := by
  induction env with
  | nil => intro v env' k₀ v₀ h; cases h
  | cons kv rest ih =>
      intro v env' k₀ v₀ h hk hm
      obtain ⟨k₁, v₁⟩ := kv
      by_cases h1 : k₁ = k
      · rw [removeVar, if_pos h1] at h
        obtain ⟨rfl, rfl⟩ : v₁ = v ∧ rest = env' := by simpa using h
        rcases List.mem_cons.1 hm with heq | hmem
        · exfalso
          apply hk
          rw [← h1]
          simpa using congrArg Prod.fst heq
        · exact hmem
      · rw [removeVar, if_neg h1, Option.map_eq_some'] at h
        obtain ⟨⟨v₂, rest'⟩, hsp, hp⟩ := h
        obtain ⟨rfl, rfl⟩ : v = v₂ ∧ env' = (k₁, v₁) :: rest' := by
          simp only [Prod.mk.injEq] at hp
          exact ⟨hp.1.symm, hp.2.symm⟩
        rcases List.mem_cons.1 hm with heq | hmem
        · exact heq ▸ List.mem_cons_self _ _
        · exact List.mem_cons_of_mem _ (ih v rest' k₀ v₀ hsp hk hmem)

theorem keysNodup_sublist (env env' : Env) (h : List.Sublist env' env)
    (hnd : keysNodup env) : keysNodup env' :=
  hnd.sublist (h.map Prod.fst)

theorem removeVar_lookup_none (env : Env) (k : String) :
    ∀ v env', keysNodup env → removeVar env k = some (v, env') →
      lookupVar env' k = none := by
  induction env with
  | nil => intro v env' _ h; cases h
  | cons kv rest ih =>
      intro v env' hnd h
      obtain ⟨k₁, v₁⟩ := kv
      rw [keysNodup, List.map_cons, List.nodup_cons] at hnd
      by_cases h1 : k₁ = k
      · rw [removeVar, if_pos h1] at h
        obtain ⟨rfl, rfl⟩ : v₁ = v ∧ rest = env' := by simpa using h
        rw [lookupVar_eq_none_iff]
        intro p hp hpk
        exact hnd.1 (h1 ▸ hpk ▸ List.mem_map.2 ⟨p, hp, rfl⟩)
      · rw [removeVar, if_neg h1, Option.map_eq_some'] at h
        obtain ⟨⟨v₂, rest'⟩, hsp, hp⟩ := h
        obtain ⟨rfl, rfl⟩ : v = v₂ ∧ env' = (k₁, v₁) :: rest' := by
          simp only [Prod.mk.injEq] at hp
          exact ⟨hp.1.symm, hp.2.symm⟩
        rw [lookupVar, if_neg h1]
        exact ih v rest' hnd.2 hsp

end EnvLoader

namespace EnvLoader

theorem passStep_warnings_mono :
    ∀ (pass : List String) (vars passed : Env) (ws : List Warning),
      ∃ ws', (passStep pass vars passed ws).warnings = ws ++ ws' := by
  intro pass
  induction pass with
  | nil =>
      intro vars passed ws
      exact ⟨[], by simp [passStep]⟩
  | cons name rest ih =>
      intro vars passed ws
      cases hr : removeVar vars name with
      | some p =>
          obtain ⟨value, vars'⟩ := p
          simp only [passStep, hr]
          exact ih vars' (insertVar passed name value) ws
      | none =>
          simp only [passStep, hr]
          obtain ⟨ws', hws⟩ := ih vars passed (ws ++ [Warning.missingPass name])
          exact ⟨Warning.missingPass name :: ws', by rw [hws, List.append_assoc]; rfl⟩

theorem passStep_vars_sublist :
    ∀ (pass : List String) (vars passed : Env) (ws : List Warning),
      List.Sublist (passStep pass vars passed ws).vars vars := by
  intro pass
  induction pass with
  | nil =>
      intro vars passed ws
      exact List.Sublist.refl vars
  | cons name rest ih =>
      intro vars passed ws
      cases hr : removeVar vars name with
      | some p =>
          obtain ⟨value, vars'⟩ := p
          simp only [passStep, hr]
          exact (ih vars' (insertVar passed name value) ws).trans
            (removeVar_sublist vars name value vars' hr)
      | none =>
          simp only [passStep, hr]
          exact ih vars passed (ws ++ [Warning.missingPass name])

theorem passStep_mem_vars :
    ∀ (pass : List String) (vars passed : Env) (ws : List Warning) (k v : String),
      k ∉ pass → (k, v) ∈ vars → (k, v) ∈ (passStep pass vars passed ws).vars := by
  intro pass
  induction pass with
  | nil =>
      intro vars passed ws k v _ hm
      exact hm
  | cons name rest ih =>
      intro vars passed ws k v hk hm
      have hkname : k ≠ name := fun h => hk (h ▸ List.mem_cons_self _ _)
      have hkrest : k ∉ rest := fun h => hk (List.mem_cons_of_mem _ h)
      cases hr : removeVar vars name with
      | some p =>
          obtain ⟨value, vars'⟩ := p
          simp only [passStep, hr]
          exact ih vars' (insertVar passed name value) ws k v hkrest
            (removeVar_mem vars name value vars' k v hr hkname hm)
      | none =>
          simp only [passStep, hr]
          exact ih vars passed (ws ++ [Warning.missingPass name]) k v hkrest hm

theorem passStep_missing :
    ∀ (pass : List String) (vars passed : Env) (ws : List Warning) (k : String),
      k ∈ pass → lookupVar vars k = none →
      Warning.missingPass k ∈ (passStep pass vars passed ws).warnings := by
  intro pass
  induction pass with
  | nil =>
      intro vars passed ws k hk
      cases hk
  | cons name rest ih =>
      intro vars passed ws k hk hl
      by_cases hkn : k = name
      · subst hkn
        simp only [passStep, removeVar_eq_none vars k hl]
        obtain ⟨ws', hws⟩ :=
          passStep_warnings_mono rest vars passed (ws ++ [Warning.missingPass k])
        rw [hws]
        simp
      · have hkrest : k ∈ rest := by
          rcases List.mem_cons.1 hk with h | h
          · exact absurd h hkn
          · exact h
        cases hr : removeVar vars name with
        | some p =>
            obtain ⟨value, vars'⟩ := p
            simp only [passStep, hr]
            have hl' : lookupVar vars' k = none := by
              rw [lookupVar_eq_none_iff] at hl ⊢
              intro q hq
              exact hl q ((removeVar_sublist vars name value vars' hr).subset hq)
            exact ih vars' (insertVar passed name value) ws k hkrest hl'
        | none =>
            simp only [passStep, hr]
            exact ih vars passed (ws ++ [Warning.missingPass name]) k hkrest hl

theorem passStep_stable :
    ∀ (pass : List String) (vars passed : Env) (ws : List Warning) (k v : String),
      lookupVar vars k = none → lookupVar passed k = some v →
      lookupVar (passStep pass vars passed ws).passed k = some v ∧
        lookupVar (passStep pass vars passed ws).vars k = none := by
  intro pass
  induction pass with
  | nil =>
      intro vars passed ws k v hv hp
      exact ⟨hp, hv⟩
  | cons name rest ih =>
      intro vars passed ws k v hv hp
      cases hr : removeVar vars name with
      | some p =>
          obtain ⟨value, vars'⟩ := p
          have hkn : name ≠ k := by
            intro h
            subst h
            rw [removeVar_eq_none vars name hv] at hr
            cases hr
          simp only [passStep, hr]
          have hv' : lookupVar vars' k = none := by
            rw [lookupVar_eq_none_iff] at hv ⊢
            intro q hq
            exact hv q ((removeVar_sublist vars name value vars' hr).subset hq)
          have hp' : lookupVar (insertVar passed name value) k = some v := by
            rw [lookupVar_insertVar_ne passed name k value hkn]
            exact hp
          exact ih vars' (insertVar passed name value) ws k v hv' hp'
      | none =>
          simp only [passStep, hr]
          exact ih vars passed (ws ++ [Warning.missingPass name]) k v hv hp

theorem passStep_pass_lookup :
    ∀ (pass : List String) (vars passed : Env) (ws : List Warning) (k v : String),
      keysNodup vars → k ∈ pass → (k, v) ∈ vars →
      lookupVar (passStep pass vars passed ws).passed k = some v ∧
        lookupVar (passStep pass vars passed ws).vars k = none := by
  intro pass
  induction pass with
  | nil =>
      intro vars passed ws k v _ hk
      cases hk
  | cons name rest ih =>
      intro vars passed ws k v hnd hk hm
      by_cases hkn : name = k
      · subst hkn
        obtain ⟨vars', hr⟩ := removeVar_of_mem vars name v hnd hm
        simp only [passStep, hr]
        have hv' : lookupVar vars' name = none :=
          removeVar_lookup_none vars name v vars' hnd hr
        have hp' : lookupVar (insertVar passed name v) name = some v :=
          lookupVar_insertVar_self passed name v
        exact passStep_stable rest vars' (insertVar passed name v) ws name v hv' hp'
      · have hkrest : k ∈ rest := by
          rcases List.mem_cons.1 hk with h | h
          · exact absurd h.symm hkn
          · exact h
        cases hr : removeVar vars name with
        | some p =>
            obtain ⟨value, vars'⟩ := p
            simp only [passStep, hr]
            exact ih vars' (insertVar passed name value) ws k v
              (keysNodup_sublist vars vars' (removeVar_sublist vars name value vars' hr) hnd)
              hkrest
              (removeVar_mem vars name value vars' k v hr (fun h => hkn h.symm) hm)
        | none =>
            simp only [passStep, hr]
            exact ih vars passed (ws ++ [Warning.missingPass name]) k v hnd hkrest hm

theorem foldl_pfx_lookup_none (p : String) :
    ∀ (vars passed : Env) (k : String), (∀ q ∈ vars, q.1 ≠ k) →
      lookupVar
        (vars.foldl
          (fun acc kv => if strStartsWith kv.1 p then acc else insertVar acc kv.1 kv.2)
          passed) k = lookupVar passed k := by
  intro vars
  induction vars with
  | nil =>
      intro passed k _
      rfl
  | cons q rest ih =>
      intro passed k h
      obtain ⟨k₀, v₀⟩ := q
      have hk : k₀ ≠ k := h (k₀, v₀) (List.mem_cons_self _ _)
      have htail : ∀ q ∈ rest, q.1 ≠ k := fun q hq => h q (List.mem_cons_of_mem _ hq)
      rw [List.foldl_cons]
      by_cases hs : strStartsWith k₀ p = true
      · simp only [hs, if_true]
        exact ih passed k htail
      · simp only [Bool.not_eq_true] at hs
        simp only [hs, Bool.false_eq_true, if_false]
        rw [ih (insertVar passed k₀ v₀) k htail]
        exact lookupVar_insertVar_ne passed k₀ k v₀ hk

theorem pfxStep_passed_lookup (p : String) :
    ∀ (vars passed : Env) (k v : String),
      keysNodup vars → (k, v) ∈ vars → strStartsWith k p = false →
      lookupVar (pfxStep (some p) vars passed).2 k = some v := by
  intro vars
  induction vars with
  | nil =>
      intro passed k v _ hm
      cases hm
  | cons q rest ih =>
      intro passed k v hnd hm hks
      obtain ⟨k₀, v₀⟩ := q
      rw [keysNodup, List.map_cons, List.nodup_cons] at hnd
      simp only [pfxStep, List.foldl_cons]
      simp only [List.mem_cons, Prod.mk.injEq] at hm
      rcases hm with ⟨h1, h2⟩ | hmem
      · subst h1
        subst h2
        simp only [hks, Bool.false_eq_true, if_false]
        have htail : ∀ q ∈ rest, q.1 ≠ k := by
          intro q hq hqk
          exact hnd.1 (hqk ▸ List.mem_map.2 ⟨q, hq, rfl⟩)
        rw [foldl_pfx_lookup_none p rest (insertVar passed k v) k htail]
        exact lookupVar_insertVar_self passed k v
      · have := ih
          (if strStartsWith k₀ p = true then passed else insertVar passed k₀ v₀)
          k v hnd.2 hmem hks
        simp only [pfxStep] at this
        by_cases hs : strStartsWith k₀ p = true
        · simp only [hs, if_true] at this ⊢
          exact this
        · simp only [Bool.not_eq_true] at hs
          simp only [hs, Bool.false_eq_true, if_false] at this ⊢
          exact this

theorem pfxStep_vars_lookup_none (p : String) (vars passed : Env) (k : String)
    (hks : strStartsWith k p = false) :
    lookupVar (pfxStep (some p) vars passed).1 k = none := by
  rw [lookupVar_eq_none_iff]
  intro q hq hqk
  simp only [pfxStep] at hq
  have hfil := List.mem_filter.1 hq
  rw [hqk, hks] at hfil
  cases hfil.2

theorem pfxStep_passed_stable (pfx : Option String) (vars passed : Env) (k : String)
    (h : ∀ q ∈ vars, q.1 ≠ k) :
    lookupVar (pfxStep pfx vars passed).2 k = lookupVar passed k := by
  cases pfx with
  | none => rfl
  | some p =>
      simp only [pfxStep]
      exact foldl_pfx_lookup_none p vars passed k h

end EnvLoader

namespace EnvLoader

theorem resolveVar_success (cfg : Config) (resolve : String → Option String)
    (st : LoopState) (k v m r val : String)
    (hsplit : strSplitOnce v "::" = some (m, r))
    (hres : (m = "value" ∧ val = r) ∨ (m = "aws_sm" ∧ resolve r = some val)) :
    resolveVar cfg resolve st k v = Except.ok { st with
      passed := insertVar st.passed (outputName cfg.envPfx k) val,
      calls := if m = "aws_sm" then st.calls ++ [r] else st.calls } := by
  rcases hres with ⟨rfl, rfl⟩ | ⟨rfl, hr⟩
  · simp [resolveVar, hsplit]
  · simp [resolveVar, hsplit, hr]

theorem resolveVar_shape (cfg : Config) (resolve : String → Option String)
    (st : LoopState) (k v : String) (st' : LoopState)
    (h : resolveVar cfg resolve st k v = Except.ok st' ∨
         resolveVar cfg resolve st k v = Except.error st') :
    (st'.passed = st.passed ∨
      ∃ val, st'.passed = insertVar st.passed (outputName cfg.envPfx k) val) ∧
    ∃ ws, st'.warnings = st.warnings ++ ws := by
  cases hsp : strSplitOnce v "::" with
  | none =>
      simp only [resolveVar, hsp] at h
      rcases h with h | h
      · injection h with h2
        subst h2
        exact ⟨Or.inl rfl, ⟨[], by simp⟩⟩
      · simp at h
  | some q =>
      obtain ⟨m, r⟩ := q
      simp only [resolveVar, hsp] at h
      by_cases h1 : m = "value"
      · rw [if_pos h1] at h
        rcases h with h | h
        · injection h with h2
          subst h2
          exact ⟨Or.inr ⟨r, rfl⟩, ⟨[], by simp⟩⟩
        · simp at h
      · rw [if_neg h1] at h
        by_cases h2 : m = "aws_sm"
        · rw [if_pos h2] at h
          cases hr : resolve r with
          | some val =>
              rw [hr] at h
              rcases h with h | h
              · injection h with h3
                subst h3
                exact ⟨Or.inr ⟨val, rfl⟩, ⟨[], by simp⟩⟩
              · simp at h
          | none =>
              rw [hr] at h
              cases hb : cfg.ignore_missing with
              | true =>
                  rw [if_pos hb] at h
                  rcases h with h | h
                  · injection h with h3
                    subst h3
                    exact ⟨Or.inl rfl, ⟨[Warning.secretFailed r k], rfl⟩⟩
                  · simp at h
              | false =>
                  rw [if_neg (by simp [hb])] at h
                  rcases h with h | h
                  · simp at h
                  · injection h with h3
                    subst h3
                    exact ⟨Or.inl rfl, ⟨[Warning.secretFailed r k], rfl⟩⟩
        · rw [if_neg h2] at h
          cases hb : cfg.ignore_missing with
          | true =>
              rw [if_pos hb] at h
              rcases h with h | h
              · injection h with h3
                subst h3
                exact ⟨Or.inl rfl, ⟨[Warning.unknownMethod m k], rfl⟩⟩
              · simp at h
          | false =>
              rw [if_neg (by simp [hb])] at h
              rcases h with h | h
              · simp at h
              · injection h with h3
                subst h3
                exact ⟨Or.inl rfl, ⟨[Warning.unknownMethod m k], rfl⟩⟩

theorem runLoop_warnings_mono (cfg : Config) (resolve : String → Option String) :
    ∀ (cands : List (String × String)) (st : LoopState) (w : Warning),
      w ∈ st.warnings → w ∈ runWarnings (runLoop cfg resolve cands st) := by
  intro cands
  induction cands with
  | nil =>
      intro st w hw
      exact hw
  | cons kv rest ih =>
      intro st w hw
      obtain ⟨k, v⟩ := kv
      cases hr : resolveVar cfg resolve st k v with
      | ok st₁ =>
          obtain ⟨ws, hws⟩ := (resolveVar_shape cfg resolve st k v st₁ (Or.inl hr)).2
          have hmem : w ∈ st₁.warnings := by
            rw [hws]
            exact List.mem_append_left _ hw
          simp only [runLoop, hr]
          exact ih st₁ w hmem
      | error st₁ =>
          obtain ⟨ws, hws⟩ := (resolveVar_shape cfg resolve st k v st₁ (Or.inr hr)).2
          simp only [runLoop, hr, runWarnings]
          rw [hws]
          exact List.mem_append_left _ hw

theorem runLoop_lookup_preserved (cfg : Config) (resolve : String → Option String)
    (n : String) :
    ∀ (cands : List (String × String)) (st : LoopState) (env' : Env)
      (w : List Warning) (c : List String),
      (∀ kv ∈ cands, outputName cfg.envPfx kv.1 ≠ n) →
      runLoop cfg resolve cands st = RunResult.launch env' w c →
      lookupVar env' n = lookupVar st.passed n := by
  intro cands
  induction cands with
  | nil =>
      intro st env' w c _ h
      obtain ⟨h1, h2, h3⟩ : st.passed = env' ∧ st.warnings = w ∧ st.calls = c := by
        simpa [runLoop, RunResult.launch.injEq] using h
      rw [← h1]
  | cons kv rest ih =>
      intro st env' w c hno h
      obtain ⟨k, v⟩ := kv
      cases hr : resolveVar cfg resolve st k v with
      | error st₁ =>
          simp only [runLoop, hr] at h
          simp at h
      | ok st₁ =>
          simp only [runLoop, hr] at h
          have hrest := ih st₁ env' w c (fun kv hkv => hno kv (List.mem_cons_of_mem _ hkv)) h
          rcases (resolveVar_shape cfg resolve st k v st₁ (Or.inl hr)).1 with hp | ⟨val, hp⟩
          · rw [hrest, hp]
          · rw [hrest, hp]
            exact lookupVar_insertVar_ne st.passed (outputName cfg.envPfx k) n val
              (hno (k, v) (List.mem_cons_self _ _))

theorem runLoop_writes (cfg : Config) (resolve : String → Option String)
    (p N dv m r val : String)
    (hp : cfg.envPfx = some p)
    (hsplit : strSplitOnce dv "::" = some (m, r))
    (hres : (m = "value" ∧ val = r) ∨ (m = "aws_sm" ∧ resolve r = some val)) :
    ∀ (cands : List (String × String)) (st : LoopState) (env' : Env)
      (w : List Warning) (c : List String),
      keysNodup cands →
      (∀ kv ∈ cands, strStartsWith kv.1 p = true) →
      (p ++ N, dv) ∈ cands →
      runLoop cfg resolve cands st = RunResult.launch env' w c →
      lookupVar env' N = some val := by
  intro cands
  induction cands with
  | nil =>
      intro st env' w c _ _ hm
      cases hm
  | cons kv rest ih =>
      intro st env' w c hnd hsw hm h
      obtain ⟨k₀, v₀⟩ := kv
      rw [keysNodup, List.map_cons, List.nodup_cons] at hnd
      simp only [List.mem_cons, Prod.mk.injEq] at hm
      rcases hm with ⟨h1, h2⟩ | hmem
      · subst h1
        subst h2
        have hout : outputName cfg.envPfx (p ++ N) = N := by
          rw [hp, outputName, if_pos (strStartsWith_append p N)]
          exact dropPfx_append p N
        have hrv := resolveVar_success cfg resolve st (p ++ N) dv m r val hsplit hres
        cases hr : resolveVar cfg resolve st (p ++ N) dv with
        | error st₁ =>
            rw [hr] at hrv
            simp at hrv
        | ok st₁ =>
            rw [hr] at hrv
            injection hrv with h3
            subst h3
            simp only [runLoop, hr] at h
            have hnok : ∀ kv ∈ rest, outputName cfg.envPfx kv.1 ≠ N := by
              intro kv hkv hkN
              have hsw' := hsw kv (List.mem_cons_of_mem _ hkv)
              rw [hp, outputName, if_pos hsw'] at hkN
              have hk1 : kv.1 = p ++ N := by
                rw [← append_dropPfx kv.1 p hsw', hkN]
              exact hnd.1 (hk1 ▸ List.mem_map.2 ⟨kv, hkv, rfl⟩)
            have hpres := runLoop_lookup_preserved cfg resolve N rest _ env' w c hnok h
            rw [hpres]
            simp only [hout]
            exact lookupVar_insertVar_self st.passed N val
      · cases hr : resolveVar cfg resolve st k₀ v₀ with
        | error st₁ =>
            simp only [runLoop, hr] at h
            simp at h
        | ok st₁ =>
            simp only [runLoop, hr] at h
            exact ih st₁ env' w c hnd.2
              (fun kv hkv => hsw kv (List.mem_cons_of_mem _ hkv)) hmem h

end EnvLoader

namespace EnvLoader

theorem strExt (a b : String) (h : a.data = b.data) : a = b := by
  cases a
  cases b
  cases h
  rfl

theorem strSplitOnce_value (X : String) :
    strSplitOnce ("value::" ++ X) "::" = some ("value", X) := by
  have hd : ("value::" ++ X).data =
      'v' :: 'a' :: 'l' :: 'u' :: 'e' :: ':' :: ':' :: X.data := by
    rw [strData_append]
    rfl
  have hn : ("::").data = [':', ':'] := rfl
  rw [strSplitOnce, hd, hn]
  simp [splitOnceL, startsWithL, startsWithL_nil]

/-- C1 (counterexample): with no prefix and no pass list, the input
environment of the claimed scenario yields only `FOO = bar`: the
candidate `BAZ`, whose value has no `::`, is dropped by the resolution
loop rather than passed through, so the claimed result
`{FOO: bar, BAZ: plain}` is wrong. -/
theorem C1_counterexample :
    run ⟨[], false, none⟩ (fun _ => none) [("FOO", "value::bar"), ("BAZ", "plain")] =
      RunResult.launch [("FOO", "bar")] [] [] ∧
    lookupVar [("FOO", "bar")] "BAZ" = none := by
  exact ⟨rfl, rfl⟩

/-- C1 (amended): a candidate variable whose value does not contain `::`
is NOT inserted into the output map: the loop body leaves the state
completely unchanged, so the variable is dropped from the final
environment. -/
theorem C1_amended (cfg : Config) (resolve : String → Option String)
    (st : LoopState) (k v : String) (h : strContains v "::" = false) :
    resolveVar cfg resolve st k v = Except.ok st := by
  have hs := strContains_iff_strSplitOnce v "::"
  rw [h] at hs
  cases hsp : strSplitOnce v "::" with
  | none => simp [resolveVar, hsp]
  | some q =>
      rw [hsp] at hs
      simp at hs

/-- C1 (amended, witness): the concrete candidate `BAZ = plain`. -/
theorem C1_amended_witness :
    strContains "plain" "::" = false ∧
    resolveVar ⟨[], false, none⟩ (fun _ => none) ⟨[], [], []⟩ "BAZ" "plain" =
      Except.ok ⟨[], [], []⟩ :=
  ⟨rfl, C1_amended ⟨[], false, none⟩ (fun _ => none) ⟨[], [], []⟩ "BAZ" "plain" rfl⟩

/-- C4: a directive is detected iff the value contains `::`, and the split
is at the FIRST occurrence: the value is method ++ "::" ++ payload and the
method tag itself contains no `::` (the payload may). -/
theorem C4_first_split (v m r : String) :
    (strContains v "::" = true ↔ (strSplitOnce v "::").isSome = true) ∧
    (strSplitOnce v "::" = some (m, r) →
      v = m ++ "::" ++ r ∧ strContains m "::" = false) := by
  constructor
  · rw [strContains_iff_strSplitOnce]
  · intro h
    exact strSplitOnce_eq_some v "::" m r (by decide) h

/-- C4 (witness): `a::b::c` splits at the first `::` into method `a` and
payload `b::c`. -/
theorem C4_first_split_witness :
    (strContains "a::b::c" "::" = true ↔ (strSplitOnce "a::b::c" "::").isSome = true) ∧
    ("a::b::c" : String) = "a" ++ "::" ++ "b::c" ∧ strContains "a" "::" = false := by
  have h := C4_first_split "a::b::c" "a" "b::c"
  exact ⟨h.1, h.2 rfl⟩

/-- C5: a candidate whose value has the form `value::X` resolves to exactly
the payload `X`, inserted verbatim with no change to the recorded backend
calls, and the outcome does not depend on the secret backend at all. -/
theorem C5_value_verbatim (cfg : Config) (resolve resolve' : String → Option String)
    (st : LoopState) (k X v : String) (hv : v = "value::" ++ X) :
    resolveVar cfg resolve st k v =
      Except.ok { st with passed := insertVar st.passed (outputName cfg.envPfx k) X } ∧
    resolveVar cfg resolve st k v = resolveVar cfg resolve' st k v := by
  subst hv
  have hsp := strSplitOnce_value X
  have h1 := resolveVar_success cfg resolve st k ("value::" ++ X) "value" X X hsp
    (Or.inl ⟨rfl, rfl⟩)
  have h2 := resolveVar_success cfg resolve' st k ("value::" ++ X) "value" X X hsp
    (Or.inl ⟨rfl, rfl⟩)
  constructor
  · rw [h1]
    simp
  · rw [h1, h2]

/-- C5 (witness): `FOO = value::bar` resolves to `bar` with two different
backends giving the same outcome. -/
theorem C5_value_verbatim_witness :
    resolveVar ⟨[], false, none⟩ (fun _ => none) ⟨[], [], []⟩ "FOO" "value::bar" =
      Except.ok ⟨[("FOO", "bar")], [], []⟩ ∧
    resolveVar ⟨[], false, none⟩ (fun _ => none) ⟨[], [], []⟩ "FOO" "value::bar" =
      resolveVar ⟨[], false, none⟩ (fun _ => some "other") ⟨[], [], []⟩ "FOO" "value::bar" :=
  C5_value_verbatim ⟨[], false, none⟩ (fun _ => none) (fun _ => some "other")
    ⟨[], [], []⟩ "FOO" "bar" "value::bar" rfl

/-- C9: a value starting with `::` parses as a directive with an empty
method tag and takes the unknown-load-method path: a warning is logged,
the state's output map is unchanged (the value is never forwarded), and
the loop exits the process unless `ignore_missing` is set, in which case
the variable is dropped. -/
theorem C9_empty_method (cfg : Config) (resolve : String → Option String)
    (st : LoopState) (k v : String) (h : strStartsWith v "::" = true) :
    ∃ r, strSplitOnce v "::" = some ("", r) ∧ v = "::" ++ r ∧
      resolveVar cfg resolve st k v =
        (if cfg.ignore_missing = true
         then Except.ok { st with warnings := st.warnings ++ [Warning.unknownMethod "" k] }
         else Except.error { st with warnings := st.warnings ++ [Warning.unknownMethod "" k] }) := by
  rw [strStartsWith] at h
  have hsp := splitOnceL_of_startsWith ("::").data v.data h
  have hr₁ : strSplitOnce v "::" =
      some ("", String.mk (v.data.drop ("::").data.length)) := by
    rw [strSplitOnce, hsp]
    rfl
  refine ⟨String.mk (v.data.drop ("::").data.length), hr₁, ?_, ?_⟩
  · refine (strExt ("::" ++ String.mk (v.data.drop ("::").data.length)) v ?_).symm
    rw [strData_append]
    exact startsWithL_drop ("::").data v.data h
  · cases hb : cfg.ignore_missing <;> simp [resolveVar, hr₁, hb]

/-- C9 (witness): `K = ::x` with `ignore_missing = true` only logs the
empty-method warning and drops the variable. -/
theorem C9_empty_method_witness :
    resolveVar ⟨[], true, none⟩ (fun _ => none) ⟨[], [], []⟩ "K" "::x" =
      Except.ok ⟨[], [Warning.unknownMethod "" "K"], []⟩ := by
  obtain ⟨r, h1, h2, h3⟩ :=
    C9_empty_method ⟨[], true, none⟩ (fun _ => none) ⟨[], [], []⟩ "K" "::x" rfl
  simpa using h3

end EnvLoader

namespace EnvLoader

/-- C2: when a candidate's directive fails to resolve (`aws_sm` with the
backend returning nothing) or carries a method tag other than `value` and
`aws_sm`, a warning naming the failure is logged, the variable is never
inserted (output map unchanged) and: with `ignore_missing = false` the
loop terminates at once with exit status 1, not touching the remaining
variables; with `ignore_missing = true` the loop simply continues on the
remaining variables. -/
theorem C2_failure_policy (cfg : Config) (resolve : String → Option String)
    (st : LoopState) (k v m r : String) (rest : List (String × String))
    (hsplit : strSplitOnce v "::" = some (m, r))
    (hfail : (m = "aws_sm" ∧ resolve r = none) ∨ (m ≠ "value" ∧ m ≠ "aws_sm")) :
    ∃ st' : LoopState,
      st'.passed = st.passed ∧
      st'.warnings = st.warnings ++
        [if m = "aws_sm" then Warning.secretFailed r k else Warning.unknownMethod m k] ∧
      st'.calls = (if m = "aws_sm" then st.calls ++ [r] else st.calls) ∧
      resolveVar cfg resolve st k v =
        (if cfg.ignore_missing = true then Except.ok st' else Except.error st') ∧
      (cfg.ignore_missing = false →
        runLoop cfg resolve ((k, v) :: rest) st = RunResult.exit1 st'.warnings st'.calls) ∧
      (cfg.ignore_missing = true →
        runLoop cfg resolve ((k, v) :: rest) st = runLoop cfg resolve rest st') := by
  rcases hfail with ⟨rfl, hr⟩ | ⟨h1, h2⟩
  · refine ⟨⟨st.passed, st.warnings ++ [Warning.secretFailed r k], st.calls ++ [r]⟩,
      rfl, by simp, by simp, ?_, ?_, ?_⟩
    · cases hb : cfg.ignore_missing <;> simp [resolveVar, hsplit, hr, hb]
    · intro hb
      have hrv : resolveVar cfg resolve st k v =
          Except.error ⟨st.passed, st.warnings ++ [Warning.secretFailed r k], st.calls ++ [r]⟩ := by
        simp [resolveVar, hsplit, hr, hb]
      simp only [runLoop, hrv]
    · intro hb
      have hrv : resolveVar cfg resolve st k v =
          Except.ok ⟨st.passed, st.warnings ++ [Warning.secretFailed r k], st.calls ++ [r]⟩ := by
        simp [resolveVar, hsplit, hr, hb]
      simp only [runLoop, hrv]
  · refine ⟨⟨st.passed, st.warnings ++ [Warning.unknownMethod m k], st.calls⟩,
      rfl, by simp [h2], by simp [h2], ?_, ?_, ?_⟩
    · cases hb : cfg.ignore_missing <;> simp [resolveVar, hsplit, h1, h2, hb]
    · intro hb
      have hrv : resolveVar cfg resolve st k v =
          Except.error ⟨st.passed, st.warnings ++ [Warning.unknownMethod m k], st.calls⟩ := by
        simp [resolveVar, hsplit, h1, h2, hb]
      simp only [runLoop, hrv]
    · intro hb
      have hrv : resolveVar cfg resolve st k v =
          Except.ok ⟨st.passed, st.warnings ++ [Warning.unknownMethod m k], st.calls⟩ := by
        simp [resolveVar, hsplit, h1, h2, hb]
      simp only [runLoop, hrv]

/-- C2 (witness): the unknown method `boom` with `ignore_missing = false`
exits immediately with the warning logged. -/
theorem C2_failure_policy_witness :
    runLoop ⟨[], false, none⟩ (fun _ => none) [("K", "boom::x")] ⟨[], [], []⟩ =
      RunResult.exit1 [Warning.unknownMethod "boom" "K"] [] := by
  obtain ⟨st', hp, hw, hc, hrv, hexit, hcont⟩ :=
    C2_failure_policy ⟨[], false, none⟩ (fun _ => none) ⟨[], [], []⟩ "K" "boom::x"
      "boom" "x" [] rfl (Or.inr ⟨by simp, by simp⟩)
  rw [hexit rfl, hw, hc]
  simp

/-- C3: when a candidate's directive resolves successfully (`value`, or
`aws_sm` with the backend returning a value), the result is inserted:
under the name with the configured prefix stripped exactly once when the
prefix is set and the name starts with it (`pfx ++ stripped = name`),
under the unchanged name when the prefix is set but the name does not
start with it, and under the unchanged name when no prefix is set. -/
theorem C3_name_rewriting (cfg : Config) (resolve : String → Option String)
    (st : LoopState) (k v m r val p : String)
    (hsplit : strSplitOnce v "::" = some (m, r))
    (hres : (m = "value" ∧ val = r) ∨ (m = "aws_sm" ∧ resolve r = some val)) :
    (cfg.envPfx = some p → strStartsWith k p = true →
      resolveVar cfg resolve st k v = Except.ok { st with
        passed := insertVar st.passed (dropPfx k p) val,
        calls := if m = "aws_sm" then st.calls ++ [r] else st.calls } ∧
      p ++ dropPfx k p = k) ∧
    (cfg.envPfx = some p → strStartsWith k p = false →
      resolveVar cfg resolve st k v = Except.ok { st with
        passed := insertVar st.passed k val,
        calls := if m = "aws_sm" then st.calls ++ [r] else st.calls }) ∧
    (cfg.envPfx = none →
      resolveVar cfg resolve st k v = Except.ok { st with
        passed := insertVar st.passed k val,
        calls := if m = "aws_sm" then st.calls ++ [r] else st.calls }) := by
  have hrv := resolveVar_success cfg resolve st k v m r val hsplit hres
  refine ⟨?_, ?_, ?_⟩
  · intro hp hs
    constructor
    · rw [hrv, hp]
      simp only [outputName]
      rw [if_pos hs]
    · exact append_dropPfx k p hs
  · intro hp hs
    rw [hrv, hp]
    simp only [outputName]
    rw [if_neg (by simp [hs])]
  · intro hp
    rw [hrv, hp]
    simp only [outputName]

/-- C3 (witness): with prefix `P_`, name `P_K` is stripped to `K`, name
`QK` is kept, and without a prefix `P_K` is kept. -/
theorem C3_name_rewriting_witness :
    (resolveVar ⟨[], false, some "P_"⟩ (fun _ => none) ⟨[], [], []⟩ "P_K" "value::z" =
        Except.ok ⟨[("K", "z")], [], []⟩ ∧
      ("P_" : String) ++ dropPfx "P_K" "P_" = "P_K") ∧
    resolveVar ⟨[], false, some "P_"⟩ (fun _ => none) ⟨[], [], []⟩ "QK" "value::z" =
      Except.ok ⟨[("QK", "z")], [], []⟩ ∧
    resolveVar ⟨[], false, none⟩ (fun _ => none) ⟨[], [], []⟩ "P_K" "value::z" =
      Except.ok ⟨[("P_K", "z")], [], []⟩ := by
  refine ⟨?_, ?_, ?_⟩
  · exact (C3_name_rewriting ⟨[], false, some "P_"⟩ (fun _ => none) ⟨[], [], []⟩
      "P_K" "value::z" "value" "z" "z" "P_" rfl (Or.inl ⟨rfl, rfl⟩)).1 rfl rfl
  · exact (C3_name_rewriting ⟨[], false, some "P_"⟩ (fun _ => none) ⟨[], [], []⟩
      "QK" "value::z" "value" "z" "z" "P_" rfl (Or.inl ⟨rfl, rfl⟩)).2.1 rfl rfl
  · exact (C3_name_rewriting ⟨[], false, none⟩ (fun _ => none) ⟨[], [], []⟩
      "P_K" "value::z" "value" "z" "z" "P_" rfl (Or.inl ⟨rfl, rfl⟩)).2.2 rfl

end EnvLoader

namespace EnvLoader

/-- C6: when a prefix is configured, a variable not named in the pass list
whose name does not start with the prefix is, after the pass and prefix
steps, present verbatim in the output map (name and value unchanged) and
absent from the candidate map, so the resolution loop never inspects its
value. -/
theorem C6_unmatched_forwarded (cfg : Config) (rawEnv : Env) (p k v : String)
    (hp : cfg.envPfx = some p) (hnd : keysNodup rawEnv) (hpass : k ∉ cfg.pass)
    (hm : (k, v) ∈ rawEnv) (hks : strStartsWith k p = false) :
    lookupVar (pfxStep cfg.envPfx (passStep cfg.pass rawEnv [] []).vars
        (passStep cfg.pass rawEnv [] []).passed).2 k = some v ∧
    lookupVar (pfxStep cfg.envPfx (passStep cfg.pass rawEnv [] []).vars
        (passStep cfg.pass rawEnv [] []).passed).1 k = none := by
  have hmem := passStep_mem_vars cfg.pass rawEnv [] [] k v hpass hm
  have hnd' := keysNodup_sublist rawEnv (passStep cfg.pass rawEnv [] []).vars
    (passStep_vars_sublist cfg.pass rawEnv [] []) hnd
  rw [hp]
  exact ⟨pfxStep_passed_lookup p (passStep cfg.pass rawEnv [] []).vars
      (passStep cfg.pass rawEnv [] []).passed k v hnd' hmem hks,
    pfxStep_vars_lookup_none p (passStep cfg.pass rawEnv [] []).vars
      (passStep cfg.pass rawEnv [] []).passed k hks⟩

/-- C6 (witness): with prefix `P_`, the variable `OTHER = x` is forwarded
verbatim and removed from the candidates. -/
theorem C6_unmatched_forwarded_witness :
    lookupVar [("OTHER", "x")] "OTHER" = some "x" ∧
    lookupVar [] "OTHER" = none :=
  C6_unmatched_forwarded ⟨[], false, some "P_"⟩ [("OTHER", "x")] "P_" "OTHER" "x"
    rfl (by decide) (by simp) (by decide) rfl

/-- C7 (counterexample): the pass-listed variable `FOO` (raw value `raw`)
does NOT keep its raw value when the prefix is `P_` and `P_FOO` carries a
resolving directive: the resolution loop later inserts under the stripped
name `FOO` and overwrites the passed-through entry, so the final value is
`x`, not `raw`. -/
theorem C7_counterexample :
    run ⟨["FOO"], false, some "P_"⟩ (fun _ => none)
        [("FOO", "raw"), ("P_FOO", "value::x")] =
      RunResult.launch [("FOO", "x")] [] [] ∧
    lookupVar [("FOO", "x")] "FOO" ≠ some "raw" := by
  exact ⟨rfl, by decide⟩

/-- C7 (amended): a pass-listed variable present in the raw environment is
inserted with its original name and value by the pass step, before the
prefix logic runs, and is removed from the candidates (so pass takes
precedence over prefix classification); its final value equals its raw
value provided no remaining candidate resolves to an output name equal to
it (otherwise the later insertion overwrites it, last write wins). -/
theorem C7_pass_precedence (cfg : Config) (resolve : String → Option String)
    (rawEnv : Env) (k v : String) (env' : Env) (w : List Warning) (c : List String)
    (hnd : keysNodup rawEnv) (hk : k ∈ cfg.pass) (hm : (k, v) ∈ rawEnv) :
    lookupVar (passStep cfg.pass rawEnv [] []).passed k = some v ∧
    lookupVar (passStep cfg.pass rawEnv [] []).vars k = none ∧
    ((∀ kv ∈ (pfxStep cfg.envPfx (passStep cfg.pass rawEnv [] []).vars
          (passStep cfg.pass rawEnv [] []).passed).1,
        outputName cfg.envPfx kv.1 ≠ k) →
      run cfg resolve rawEnv = RunResult.launch env' w c →
      lookupVar env' k = some v) := by
  obtain ⟨hpassed, hvars⟩ := passStep_pass_lookup cfg.pass rawEnv [] [] k v hnd hk hm
  refine ⟨hpassed, hvars, ?_⟩
  intro hno hrun
  simp only [run] at hrun
  have hstable : lookupVar (pfxStep cfg.envPfx (passStep cfg.pass rawEnv [] []).vars
      (passStep cfg.pass rawEnv [] []).passed).2 k = some v := by
    rw [pfxStep_passed_stable cfg.envPfx (passStep cfg.pass rawEnv [] []).vars
      (passStep cfg.pass rawEnv [] []).passed k
      (by
        rw [lookupVar_eq_none_iff] at hvars
        exact hvars)]
    exact hpassed
  have hpres := runLoop_lookup_preserved cfg resolve k
    (pfxStep cfg.envPfx (passStep cfg.pass rawEnv [] []).vars
      (passStep cfg.pass rawEnv [] []).passed).1
    ⟨(pfxStep cfg.envPfx (passStep cfg.pass rawEnv [] []).vars
        (passStep cfg.pass rawEnv [] []).passed).2,
      (passStep cfg.pass rawEnv [] []).warnings, []⟩
    env' w c hno hrun
  rw [hpres]
  exact hstable

/-- C7 (witness): pass list `[FOO]` with prefix `P_` and a second variable
`Q` outside the prefix: `FOO` keeps its raw value through the whole run. -/
theorem C7_pass_precedence_witness :
    lookupVar [("FOO", "raw")] "FOO" = some "raw" ∧
    lookupVar [] "FOO" = none ∧
    lookupVar [("FOO", "raw"), ("Q", "q")] "FOO" = some "raw" := by
  obtain ⟨h1, h2, h3⟩ :=
    C7_pass_precedence ⟨["FOO"], false, some "P_"⟩ (fun _ => none)
      [("FOO", "raw"), ("Q", "q")] "FOO" "raw" [("FOO", "raw"), ("Q", "q")] [] []
      (by decide) (by decide) (by decide)
  exact ⟨h1, h2, h3 (fun kv hkv => absurd hkv (List.not_mem_nil kv)) rfl⟩

/-- C8 (counterexample): pass list `[FOO]` with `FOO` absent from the raw
environment only logs a warning, but the claimed absence of `FOO` from the
final environment is wrong: with prefix `P_`, the candidate `P_FOO` with
a `value` directive resolves and is inserted under the stripped name
`FOO`, so `FOO` is present in the resolved environment. -/
theorem C8_counterexample :
    run ⟨["FOO"], false, some "P_"⟩ (fun _ => none) [("P_FOO", "value::x")] =
      RunResult.launch [("FOO", "x")] [Warning.missingPass "FOO"] [] ∧
    lookupVar [("FOO", "x")] "FOO" ≠ none := by
  exact ⟨rfl, by decide⟩

/-- C8 (amended): a pass-listed name absent from the raw environment logs
a missing-pass warning (visible in the warnings of either run outcome) and
is skipped non-fatally: the pass step just records the warning and
continues with the remaining names, the map being unchanged; the name can
still appear in the resolved environment if a later directive resolution
inserts under it. -/
theorem C8_missing_pass (cfg : Config) (resolve : String → Option String)
    (rawEnv : Env) (k : String) (hk : k ∈ cfg.pass)
    (habs : lookupVar rawEnv k = none) :
    Warning.missingPass k ∈ runWarnings (run cfg resolve rawEnv) ∧
    (∀ rest vars passed ws, lookupVar vars k = none →
      passStep (k :: rest) vars passed ws =
        passStep rest vars passed (ws ++ [Warning.missingPass k])) := by
  constructor
  · have h1 := passStep_missing cfg.pass rawEnv [] [] k hk habs
    simp only [run]
    exact runLoop_warnings_mono cfg resolve
      (pfxStep cfg.envPfx (passStep cfg.pass rawEnv [] []).vars
        (passStep cfg.pass rawEnv [] []).passed).1
      ⟨(pfxStep cfg.envPfx (passStep cfg.pass rawEnv [] []).vars
          (passStep cfg.pass rawEnv [] []).passed).2,
        (passStep cfg.pass rawEnv [] []).warnings, []⟩
      (Warning.missingPass k) h1
  · intro rest vars passed ws hnone
    simp only [passStep, removeVar_eq_none vars k hnone]

/-- C8 (witness): pass list `[FOO]` on an empty environment logs the
warning, and the pass step on `FOO` is exactly a warning plus
continuation. -/
theorem C8_missing_pass_witness :
    Warning.missingPass "FOO" ∈ [Warning.missingPass "FOO"] ∧
    passStep ["FOO"] [] [] [] = passStep [] [] [] [Warning.missingPass "FOO"] := by
  obtain ⟨h1, h2⟩ :=
    C8_missing_pass ⟨["FOO"], false, none⟩ (fun _ => none) [] "FOO" (by simp) rfl
  exact ⟨h1, h2 [] [] [] [] rfl⟩

/-- C10: with a prefix `p` configured, a raw variable `N` outside the
prefix and a raw variable `p ++ N` (not pass-listed) whose directive
resolves successfully, a run that reaches the launcher maps `N` to the
directive's resolved value: the resolution loop inserts under the stripped
name after the prefix pass-through inserted the raw `N`, overwriting it. -/
theorem C10_resolution_overwrites (cfg : Config) (resolve : String → Option String)
    (rawEnv : Env) (p N vN dv m r val : String)
    (env' : Env) (w : List Warning) (c : List String)
    (hp : cfg.envPfx = some p)
    (hnd : keysNodup rawEnv)
    (hNp : strStartsWith N p = false)
    (hN : (N, vN) ∈ rawEnv)
    (hPN : (p ++ N, dv) ∈ rawEnv)
    (hpass : p ++ N ∉ cfg.pass)
    (hsplit : strSplitOnce dv "::" = some (m, r))
    (hres : (m = "value" ∧ val = r) ∨ (m = "aws_sm" ∧ resolve r = some val))
    (hrun : run cfg resolve rawEnv = RunResult.launch env' w c) :
    lookupVar env' N = some val := by
  have hpr := passStep_mem_vars cfg.pass rawEnv [] [] (p ++ N) dv hpass hPN
  have hnd1 := keysNodup_sublist rawEnv (passStep cfg.pass rawEnv [] []).vars
    (passStep_vars_sublist cfg.pass rawEnv [] []) hnd
  simp only [run] at hrun
  rw [hp] at hrun
  simp only [pfxStep] at hrun
  have hmem2 : (p ++ N, dv) ∈ (passStep cfg.pass rawEnv [] []).vars.filter
      (fun kv => strStartsWith kv.1 p) :=
    List.mem_filter.2 ⟨hpr, strStartsWith_append p N⟩
  have hnd2 : keysNodup ((passStep cfg.pass rawEnv [] []).vars.filter
      (fun kv => strStartsWith kv.1 p)) :=
    keysNodup_sublist (passStep cfg.pass rawEnv [] []).vars _
      (List.filter_sublist (passStep cfg.pass rawEnv [] []).vars) hnd1
  have hall : ∀ kv ∈ (passStep cfg.pass rawEnv [] []).vars.filter
      (fun kv => strStartsWith kv.1 p), strStartsWith kv.1 p = true :=
    fun kv hkv => (List.mem_filter.1 hkv).2
  exact runLoop_writes cfg resolve p N dv m r val hp hsplit hres
    ((passStep cfg.pass rawEnv [] []).vars.filter (fun kv => strStartsWith kv.1 p))
    _ env' w c hnd2 hall hmem2 hrun

/-- C10 (witness): prefix `P_`, raw `OTHER = x` and `P_OTHER = value::y`:
the final environment maps `OTHER` to `y`. -/
theorem C10_resolution_overwrites_witness :
    lookupVar [("OTHER", "y")] "OTHER" = some "y" :=
  C10_resolution_overwrites ⟨[], false, some "P_"⟩ (fun _ => none)
    [("OTHER", "x"), ("P_OTHER", "value::y")] "P_" "OTHER" "x" "value::y"
    "value" "y" "y" [("OTHER", "y")] [] []
    rfl (by decide) rfl (by decide) (by decide) (by simp) rfl (Or.inl ⟨rfl, rfl⟩) rfl

end EnvLoader
